import Mathlib

/-!
# Verification of the shady-css parser (`src/shady-css/parser.ts`)

Shallow embedding of the recursive-descent CSS parser.  The parser itself
(`Parser.parse`, `parseRules`, `parseRule`, `parseComment`, `parseUnknown`,
`parseAtRule`, `parseRulelist`, `parseDeclarationOrRuleset`) is translated
line-by-line from `src/shady-css/parser.ts`.

The repository sources for `token.ts`, `tokenizer.ts`, `common.ts` and
`node-factory.ts` are not available, so the token model and tokenizer are
modelled from the specification (see the doc comments marked
"Modelled from the spec").  In particular:

* `TokenKind`/`Token.is`: flat kind enumeration, with the derived categories
  `boundary` (semicolon and the brace/paren boundaries) and
  `propertyBoundary` (semicolon, closeBrace) answered by a capability check.
* classification: `/* ... */` comments (unterminated tolerated), maximal
  whitespace runs, `@` as a single-character `at` token, the six
  single-character kinds `{ } ( ) : ;`, and maximal runs of all other
  characters as `word` tokens.
* the token stream is modelled eagerly (the spec states eager tokenization
  is a conforming implementation); `previous`/`next` of the doubly linked
  token list become index arithmetic into the token list, as suggested by
  the spec's design notes.  Every `previous`/`next` access performed by the
  parser happens on tokens at or before the current cursor, where the lazy
  and the eager stream agree.

JavaScript runtime errors (dereferencing a `null` token, which a faithful
execution of the TypeScript would raise as a `TypeError`) are modelled with
`Except`: `PErr.ruleStartNull` for the `ruleStart!` assertions of
`parseDeclarationOrRuleset`, and `PErr.typeError` for the other null
dereferences.  All recursion is fuel-indexed (structural on the fuel) so
that every definition evaluates by `rfl`/`decide`; `parse` supplies a fuel
that is proven sufficient (claim C9).
-/

/-- Modelled from the spec: the flat token-kind enumeration of `Token.type`
(`token.ts` is not in the sources).  `boundary` and `propertyBoundary` are
the derived categories; the tokenizer itself only ever produces the ten
concrete kinds. -/
inductive TokenType where
  | whitespace
  | comment
  | word
  | «at»
  | openBrace
  | closeBrace
  | openParenthesis
  | closeParenthesis
  | colon
  | semicolon
  | boundary
  | propertyBoundary
deriving DecidableEq, Repr

/-- Modelled from the spec: a token is a classified span `[start, end)` of
the source text.  `idx` is its position in the token stream; the linked
`previous`/`next` pointers of the original become index arithmetic. -/
structure Token where
  type : TokenType
  start : Nat
  /-- `end` in the source (`end` is a Lean keyword). -/
  stop : Nat
  idx : Nat
deriving DecidableEq, Repr

/-- Modelled from the spec: `Range {start, end}` (again `end` ↦ `stop`). -/
structure Range where
  start : Nat
  stop : Nat
deriving DecidableEq, Repr

/-- Modelled from the spec: the capability check `token.is(kind-or-category)`.
The `boundary` category is satisfied by the semicolon and the brace/paren
boundary kinds, `propertyBoundary` by the rule-terminating kinds
(semicolon, closeBrace); every concrete kind only matches itself. -/
def Token.is (t : Token) (k : TokenType) : Bool :=
  match k with
  | .boundary =>
      t.type == .semicolon || t.type == .openBrace || t.type == .closeBrace ||
      t.type == .openParenthesis || t.type == .closeParenthesis
  | .propertyBoundary => t.type == .semicolon || t.type == .closeBrace
  | k => t.type == k

/-- Modelled from the spec: whitespace characters. -/
def isWsChar (c : Char) : Bool :=
  c = ' ' || c = '\t' || c = '\n' || c = '\r'

/-- Modelled from the spec: the single-character special kinds. -/
def isSpecialChar (c : Char) : Bool :=
  c = '@' || c = '{' || c = '}' || c = '(' || c = ')' || c = ':' || c = ';'

/-- A character that extends a `word` run: anything that is neither
whitespace nor one of the special single characters. -/
def isWordChar (c : Char) : Bool :=
  !(isWsChar c) && !(isSpecialChar c)

/-- Number of characters of a comment body after the opening `/*`,
including the closing `*/` when present (unterminated comments run to the
end of the input). -/
def commentTailLen : List Char → Nat
  | [] => 0
  | '*' :: '/' :: _ => 2
  | _ :: rest => 1 + commentTailLen rest

/-- Length of the maximal leading whitespace run. -/
def wsRun : List Char → Nat
  | [] => 0
  | c :: rest => if isWsChar c then 1 + wsRun rest else 0

/-- Length of the maximal leading word run. -/
def wordRun : List Char → Nat
  | [] => 0
  | c :: rest => if isWordChar c then 1 + wordRun rest else 0

/-- Modelled from the spec: single left-to-right classification scan,
longest match per kind.  `fuel` bounds the recursion (each step consumes at
least one character, so `cs.length` fuel is always enough); `pos` is the
absolute offset, `idx` the index of the next token. -/
def rawTokensF : Nat → List Char → Nat → Nat → List Token
  | 0, _, _, _ => []
  | _, [], _, _ => []
  | fuel + 1, c :: rest, pos, idx =>
    if c = '/' && rest.head? = some '*' then
      let len := 2 + commentTailLen rest.tail
      ⟨.comment, pos, pos + len, idx⟩ ::
        rawTokensF fuel ((c :: rest).drop len) (pos + len) (idx + 1)
    else if isWsChar c then
      let len := wsRun (c :: rest)
      ⟨.whitespace, pos, pos + len, idx⟩ ::
        rawTokensF fuel ((c :: rest).drop len) (pos + len) (idx + 1)
    else if c = '@' then
      ⟨.«at», pos, pos + 1, idx⟩ :: rawTokensF fuel rest (pos + 1) (idx + 1)
    else if c = '{' then
      ⟨.openBrace, pos, pos + 1, idx⟩ :: rawTokensF fuel rest (pos + 1) (idx + 1)
    else if c = '}' then
      ⟨.closeBrace, pos, pos + 1, idx⟩ :: rawTokensF fuel rest (pos + 1) (idx + 1)
    else if c = '(' then
      ⟨.openParenthesis, pos, pos + 1, idx⟩ :: rawTokensF fuel rest (pos + 1) (idx + 1)
    else if c = ')' then
      ⟨.closeParenthesis, pos, pos + 1, idx⟩ :: rawTokensF fuel rest (pos + 1) (idx + 1)
    else if c = ':' then
      ⟨.colon, pos, pos + 1, idx⟩ :: rawTokensF fuel rest (pos + 1) (idx + 1)
    else if c = ';' then
      ⟨.semicolon, pos, pos + 1, idx⟩ :: rawTokensF fuel rest (pos + 1) (idx + 1)
    else
      let len := wordRun (c :: rest)
      ⟨.word, pos, pos + len, idx⟩ ::
        rawTokensF fuel ((c :: rest).drop len) (pos + len) (idx + 1)

/-- The token stream of a source text. -/
def tokenize (cs : List Char) : List Token :=
  rawTokensF cs.length cs 0 0

/-- Modelled from the spec: the tokenizer, owning the text and the current
cursor into the (eagerly materialised) token stream. -/
structure Tokenizer where
  cssText : List Char
  tokens : List Token
  cursor : Nat
deriving Repr

/-- A fresh tokenizer over a source text (`new Tokenizer(cssText)`). -/
def mkTokenizer (cs : List Char) : Tokenizer :=
  ⟨cs, tokenize cs, 0⟩

/-- `tokenizer.currentToken`: `null` at end of input. -/
def Tokenizer.currentToken (s : Tokenizer) : Option Token :=
  s.tokens[s.cursor]?

/-- `tokenizer.advance()`: returns the token that was current (or `null`)
and moves past it. -/
def Tokenizer.advance (s : Tokenizer) : Option Token × Tokenizer :=
  match s.currentToken with
  | none => (none, s)
  | some t => (some t, { s with cursor := s.cursor + 1 })

/-- `token.previous` via index arithmetic. -/
def Tokenizer.prevTok (s : Tokenizer) (t : Token) : Option Token :=
  if t.idx = 0 then none else s.tokens[t.idx - 1]?

/-- `token.next` via index arithmetic. -/
def Tokenizer.nextTok (s : Tokenizer) (t : Token) : Option Token :=
  s.tokens[t.idx + 1]?

/-- `cssText.slice(a, b)` on the character list. -/
def sliceText (cs : List Char) (a b : Nat) : List Char :=
  (cs.take b).drop a

/-- `tokenizer.slice(startToken, endToken?)`: substring from the first
token's start to the end of the second token (or of the first, when the
second is absent). -/
def Tokenizer.slice (s : Tokenizer) (a : Token) (b : Option Token) : List Char :=
  sliceText s.cssText a.start (b.getD a).stop

/-- `tokenizer.getRange(startToken, endToken?)`. -/
def Tokenizer.getRange (_s : Tokenizer) (a : Token) (b : Option Token) : Range :=
  ⟨a.start, (b.getD a).stop⟩

/-- Is the character at offset `i` whitespace? -/
def wsAt (cs : List Char) (i : Nat) : Bool :=
  match cs[i]? with
  | some c => isWsChar c
  | none => false

/-- Advance the start of a range over leading whitespace (fuel-indexed). -/
def trimStartF : Nat → List Char → Nat → Nat → Nat
  | 0, _, start, _ => start
  | n + 1, cs, start, stop =>
    if start < stop && wsAt cs start then trimStartF n cs (start + 1) stop else start

/-- Retreat the end of a range over trailing whitespace (fuel-indexed). -/
def trimEndF : Nat → List Char → Nat → Nat → Nat
  | 0, _, _, stop => stop
  | n + 1, cs, start, stop =>
    if start < stop && wsAt cs (stop - 1) then trimEndF n cs start (stop - 1) else stop

/-- `tokenizer.trimRange(range)`: narrow a range to exclude leading and
trailing whitespace characters (modelled from the spec). -/
def trimRange (cs : List Char) (r : Range) : Range :=
  let s := trimStartF (r.stop - r.start) cs r.start r.stop
  let e := trimEndF (r.stop - s) cs s r.stop
  ⟨s, e⟩

/-- The AST (`common.ts` tagged union), with the default `NodeFactory`
inlined: each factory method simply builds the corresponding variant. -/
inductive Node where
  | stylesheet (rules : List Node) (range : Range)
  | comment (text : List Char) (range : Range)
  | atRule (name : List Char) (parameters : List Char) (rulelist : Option Node)
      (nameRange : Range) (parametersRange : Option Range) (range : Range)
  | rulelist (rules : List Node) (range : Range)
  | ruleset (selector : List Char) (rulelist : Node) (selectorRange : Range) (range : Range)
  | declaration (name : List Char) (value : Option Node) (nameRange : Range) (range : Range)
  | expression (text : List Char) (range : Range)
  | discarded (text : List Char) (range : Range)
deriving Repr

/-- Abnormal outcomes of running the parser: `outOfFuel` is an artefact of
the fuel-indexed embedding (proven unreachable from `parse`, claim C9);
`ruleStartNull` models the `ruleStart!` null dereferences of
`parseDeclarationOrRuleset` flagged by the comment at parser.ts:246-248;
`typeError` models every other JavaScript null dereference. -/
inductive PErr where
  | outOfFuel
  | ruleStartNull
  | typeError
deriving DecidableEq, Repr

/-- `parseComment` (parser.ts:109-116). -/
def parseComment (s : Tokenizer) : Option Node × Tokenizer :=
  match s.advance with
  | (none, s1) => (none, s1)
  | (some t, s1) => (some (.comment (s1.slice t none) ⟨t.start, t.stop⟩), s1)

/-- The boundary-run loop of `parseUnknown` (parser.ts:132-135); returns the
`end` token.  Fuel-indexed; running out of fuel returns the same state as
stopping, and the caller always supplies enough fuel. -/
def parseUnknownLoop : Nat → Tokenizer → Option Token → Option Token × Tokenizer
  | 0, s, e => (e, s)
  | n + 1, s, e =>
    match s.currentToken with
    | some t => if t.is .boundary then parseUnknownLoop n (s.advance).2 (some t) else (e, s)
    | none => (e, s)

/-- `parseUnknown` (parser.ts:124-139). -/
def parseUnknown (s : Tokenizer) : Option Node × Tokenizer :=
  match s.advance with
  | (none, s1) => (none, s1)
  | (some st, s1) =>
    let r := parseUnknownLoop (s1.tokens.length - s1.cursor) s1 none
    (some (.discarded (r.2.slice st r.1) (r.2.getRange st r.1)), r.2)

/-- The at-rule name run (parser.ts:166-169): consume consecutive `word`
tokens, returning the last one consumed. -/
def atNameRun : Nat → Tokenizer → Option Token → Option Token × Tokenizer
  | 0, s, e => (e, s)
  | n + 1, s, e =>
    match s.currentToken with
    | some t => if t.is .word then atNameRun n (s.advance).2 (some t) else (e, s)
    | none => (e, s)

/-- The parenthesis skip of `parseDeclarationOrRuleset` (parser.ts:255-258):
advance until the next `closeParenthesis` (not consumed) or end of input. -/
def skipParens : Nat → Tokenizer → Tokenizer
  | 0, s => s
  | n + 1, s =>
    match s.currentToken with
    | none => s
    | some t => if t.is .closeParenthesis then s else skipParens n (s.advance).2

/-- Result of the scan loop of `parseDeclarationOrRuleset`
(parser.ts:250-275): the mutable locals `ruleStart`, `ruleEnd`, `colon`
and the tokenizer state at the stopping token. -/
structure ScanResult where
  ruleStart : Option Token
  ruleEnd : Option Token
  colon : Option Token
  state : Tokenizer
deriving Repr

/-- The scan loop of `parseDeclarationOrRuleset` (parser.ts:250-275):
skip whitespace, skip `( ... )` interiors (not nesting-aware), stop at
`openBrace` or a `propertyBoundary`-category token, and otherwise consume
the token into `[ruleStart, ruleEnd]`, recording it in `colon` when it is a
colon token. -/
def scanDecl : Nat → Tokenizer → Option Token → Option Token → Option Token → ScanResult
  | 0, s, rs, re, co => ⟨rs, re, co, s⟩
  | n + 1, s, rs, re, co =>
    match s.currentToken with
    | none => ⟨rs, re, co, s⟩
    | some t =>
      if t.is .whitespace then
        scanDecl n (s.advance).2 rs re co
      else if t.is .openParenthesis then
        scanDecl n (skipParens n s) rs re co
      else if t.is .openBrace || t.is .propertyBoundary then
        ⟨rs, re, co, s⟩
      else
        let co' := if t.is .colon then some t else co
        match rs with
        | none => scanDecl n (s.advance).2 (some t) (some t) co'
        | some _ => scanDecl n (s.advance).2 rs (some t) co'

/-- Accumulator of `parseAtRule`'s loop (parser.ts:146-150): the mutable
locals `name`, `nameRange`, `rulelist`, `parametersStart`, `parametersEnd`. -/
structure AtAcc where
  name : Option (List Char)
  nameRange : Option Range
  rulelist : Option Node
  parametersStart : Option Token
  parametersEnd : Option Token
deriving Repr

/-- JavaScript falsiness of the at-rule `name` accumulator (`!name`):
`undefined` or the empty string. -/
def AtAcc.nameFalsy (a : AtAcc) : Bool :=
  match a.name with
  | none => true
  | some l => l.isEmpty

/-- The mutually recursive parser entry points, bundled and indexed by
fuel: `mkParser (n+1)` implements one layer of each method of the `Parser`
class, with every (mutually) recursive call and every loop iteration
delegated to the bundle at fuel `n`.  This makes the recursion structural
in the fuel while keeping each field a line-by-line translation of its
TypeScript method. -/
structure ParserFns where
  parseRules : Tokenizer → Except PErr (List Node × Tokenizer)
  parseRule : Tokenizer → Except PErr (Option Node × Tokenizer)
  parseAtRule : Tokenizer → Except PErr (Option Node × Tokenizer)
  parseAtRuleLoop : Tokenizer → AtAcc → Except PErr (AtAcc × Tokenizer)
  parseRulelist : Tokenizer → Except PErr (Node × Tokenizer)
  parseRulelistLoop : Tokenizer → Except PErr ((List Node × Option Token) × Tokenizer)
  parseDeclarationOrRuleset : Tokenizer → Except PErr (Option Node × Tokenizer)

/-- Everything below is a translation of parser.ts; see each field. -/
def mkParser : Nat → ParserFns
  | 0 =>
    { parseRules := fun _ => .error .outOfFuel
      parseRule := fun _ => .error .outOfFuel
      parseAtRule := fun _ => .error .outOfFuel
      parseAtRuleLoop := fun _ _ => .error .outOfFuel
      parseRulelist := fun _ => .error .outOfFuel
      parseRulelistLoop := fun _ => .error .outOfFuel
      parseDeclarationOrRuleset := fun _ => .error .outOfFuel }
  | n + 1 =>
    let p := mkParser n
    { -- `parseRules` (parser.ts:58-70): loop while there is a current
      -- token, collecting non-null results of `parseRule`.
      parseRules := fun s =>
        match s.currentToken with
        | none => .ok ([], s)
        | some _ => do
          let (r?, s1) ← p.parseRule s
          let (rest, s2) ← p.parseRules s1
          .ok ((match r? with | some r => r :: rest | none => rest), s2)
      -- `parseRule` (parser.ts:78-103): dispatch on the current token.
      parseRule := fun s =>
        match s.currentToken with
        | none => .ok (none, s)
        | some token =>
          if token.is .whitespace then .ok (none, (s.advance).2)
          else if token.is .comment then .ok (parseComment s)
          else if token.is .word then p.parseDeclarationOrRuleset s
          else if token.is .propertyBoundary then .ok (parseUnknown s)
          else if token.is .«at» then p.parseAtRule s
          else .ok (parseUnknown s)
      -- `parseAtRule` (parser.ts:145-203).
      parseAtRule := fun s =>
        match s.currentToken with
        | none => .ok (none, s)                       -- parser.ts:152-154
        | some t0 => do
          let (acc, s1) ← p.parseAtRuleLoop s ⟨none, none, none, none, none⟩
          match acc.name, acc.nameRange with
          | some nm, some nr =>
            -- parser.ts:190-197: parameters text/range, trimmed.
            let pp : Option Range × List Char :=
              match acc.parametersStart with
              | some ps =>
                let pr := trimRange s1.cssText (s1.getRange ps acc.parametersEnd)
                (some pr, sliceText s1.cssText pr.start pr.stop)
              | none => (none, [])
            -- parser.ts:198-199: `currentToken ? currentToken.previous!.end
            -- : cssText.length` (the `previous!` may dereference null).
            let stopN ←
              match s1.currentToken with
              | some t1 =>
                match s1.prevTok t1 with
                | some pv => Except.ok pv.stop
                | none => Except.error PErr.typeError
              | none => Except.ok s1.cssText.length
            .ok (some (.atRule nm pp.2 acc.rulelist nr pp.1 ⟨t0.start, stopN⟩), s1)
          | _, _ => .ok (none, s1)                    -- parser.ts:187-189
      -- The while loop of `parseAtRule` (parser.ts:157-185).
      parseAtRuleLoop := fun s acc =>
        match s.currentToken with
        | none => .ok (acc, s)
        | some t =>
          if t.is .whitespace then
            p.parseAtRuleLoop (s.advance).2 acc
          else if acc.nameFalsy && t.is .«at» then
            -- parser.ts:160-171: discard the `@`, then the name word-run.
            -- `const start = tokenizer.currentToken` is null when the `@`
            -- ends the input, and `getRange(start, end)` then dereferences
            -- null (a TypeError at runtime).
            let s1 := (s.advance).2
            match s1.currentToken with
            | none => .error .typeError
            | some startTok =>
              let r := atNameRun (s1.tokens.length - s1.cursor) s1 none
              let nameRange := r.2.getRange startTok r.1
              let nm := sliceText r.2.cssText nameRange.start nameRange.stop
              p.parseAtRuleLoop r.2 { acc with name := some nm, nameRange := some nameRange }
          else if t.is .openBrace then
            -- parser.ts:172-174: parse the rulelist, then break.
            do
              let (rl, s2) ← p.parseRulelist s
              .ok ({ acc with rulelist := some rl }, s2)
          else if t.is .propertyBoundary then
            .ok (acc, (s.advance).2)                  -- parser.ts:175-177
          else
            -- parser.ts:178-184: accumulate the parameter span.
            match acc.parametersStart with
            | none => p.parseAtRuleLoop (s.advance).2 { acc with parametersStart := (s.advance).1 }
            | some _ => p.parseAtRuleLoop (s.advance).2 { acc with parametersEnd := (s.advance).1 }
      -- `parseRulelist` (parser.ts:209-234).  `currentToken!.start`
      -- dereferences null when there is no current token.
      parseRulelist := fun s =>
        match s.currentToken with
        | none => .error .typeError
        | some t0 => do
          let s1 := (s.advance).2                     -- take the opening {
          let ((rules, endTok), s2) ← p.parseRulelistLoop s1
          let stopN := match endTok with
            | some e => e.stop
            | none => s2.cssText.length               -- parser.ts:230-231
          .ok (Node.rulelist rules ⟨t0.start, stopN⟩, s2)
      -- The while loop of `parseRulelist` (parser.ts:217-228).
      parseRulelistLoop := fun s =>
        match s.currentToken with
        | none => .ok (([], none), s)
        | some t =>
          if t.is .closeBrace then .ok (([], some t), (s.advance).2)
          else do
            let (r?, s1) ← p.parseRule s
            let ((rest, endTok), s2) ← p.parseRulelistLoop s1
            .ok (((match r? with | some r => r :: rest | none => rest), endTok), s2)
      -- `parseDeclarationOrRuleset` (parser.ts:241-349).
      parseDeclarationOrRuleset := fun s =>
        let sc := scanDecl (s.tokens.length - s.cursor + 1) s none none none
        match sc.state.currentToken with
        | none => .ok (none, sc.state)                -- parser.ts:277-280
        | some stopTok =>
          if stopTok.is .propertyBoundary then
            -- parser.ts:283-309: a declaration.
            match sc.ruleStart with
            | none => .error .ruleStartNull           -- `ruleStart!` at :285
            | some rs =>
              let s1 := sc.state
              let nameRange := s1.getRange rs
                (match sc.colon with | some c => s1.prevTok c | none => sc.ruleEnd)
              let declarationName := sliceText s1.cssText nameRange.start nameRange.stop
              let expr : Option Node :=
                match sc.colon with
                | some c =>
                  match s1.nextTok c with
                  | some cn =>
                    let er := trimRange s1.cssText (s1.getRange cn sc.ruleEnd)
                    some (.expression (sliceText s1.cssText er.start er.stop) er)
                  | none => none
                | none => none
              let s2 := if stopTok.is .semicolon then (s1.advance).2 else s1
              -- parser.ts:303-306: `currentToken && currentToken.previous
              -- || ruleEnd`.
              let rangeEnd : Option Token :=
                match s2.currentToken with
                | some t2 => (match s2.prevTok t2 with | some pv => some pv | none => sc.ruleEnd)
                | none => sc.ruleEnd
              let range := trimRange s2.cssText (s2.getRange rs rangeEnd)
              .ok (some (.declaration declarationName expr nameRange range), s2)
          else if sc.colon.isSome && sc.colon == sc.ruleEnd then
            -- parser.ts:311-328: the mixin-like declaration.
            do
              let (rl, s2) ← p.parseRulelist sc.state
              -- parser.ts:314: `tokenizer.currentToken.is(semicolon)`
              -- has no null guard; after an input-final rulelist this
              -- dereferences null.
              match s2.currentToken with
              | none => .error .typeError
              | some t2 =>
                let s3 := if t2.is .semicolon then (s2.advance).2 else s2
                match sc.ruleStart, sc.ruleEnd with
                | some rs, some re =>
                  let nameRange := s3.getRange rs (s3.prevTok re)
                  let declarationName := sliceText s3.cssText nameRange.start nameRange.stop
                  let rangeEnd : Option Token :=
                    match s3.currentToken with
                    | some t3 => (match s3.prevTok t3 with | some pv => some pv | none => some re)
                    | none => some re
                  let range := trimRange s3.cssText (s3.getRange rs rangeEnd)
                  .ok (some (.declaration declarationName (some rl) nameRange range), s3)
                | _, _ => .error .ruleStartNull       -- `ruleStart!` at :318
          else
            -- parser.ts:330-348: a ruleset.
            match sc.ruleStart with
            | none => .error .ruleStartNull           -- `ruleStart!` at :331
            | some rs =>
              let s1 := sc.state
              let selectorRange := s1.getRange rs sc.ruleEnd
              let selector := sliceText s1.cssText selectorRange.start selectorRange.stop
              do
                let (rl, s2) ← p.parseRulelist s1
                let stopN :=
                  match s2.currentToken with
                  | some t2 => (match s2.prevTok t2 with | some pv => pv.stop | none => rs.stop)
                  | none => s2.cssText.length
                .ok (some (.ruleset selector rl selectorRange ⟨rs.start, stopN⟩), s2) }

/-- `parseRules` at a given fuel. -/
def parseRules (n : Nat) (s : Tokenizer) : Except PErr (List Node × Tokenizer) :=
  (mkParser n).parseRules s

/-- `parseRule` at a given fuel. -/
def parseRule (n : Nat) (s : Tokenizer) : Except PErr (Option Node × Tokenizer) :=
  (mkParser n).parseRule s

/-- `parseAtRule` at a given fuel. -/
def parseAtRule (n : Nat) (s : Tokenizer) : Except PErr (Option Node × Tokenizer) :=
  (mkParser n).parseAtRule s

/-- `parseRulelist` at a given fuel. -/
def parseRulelist (n : Nat) (s : Tokenizer) : Except PErr (Node × Tokenizer) :=
  (mkParser n).parseRulelist s

/-- `parseDeclarationOrRuleset` at a given fuel. -/
def parseDeclarationOrRuleset (n : Nat) (s : Tokenizer) :
    Except PErr (Option Node × Tokenizer) :=
  (mkParser n).parseDeclarationOrRuleset s

/-- The fuel `parse` supplies: sufficient for any input (claim C9). -/
def parseFuel (s : Tokenizer) : Nat :=
  8 * s.tokens.length + 9

/-- `parseStylesheet` (parser.ts:46-49). -/
def parseStylesheet (s : Tokenizer) : Except PErr Node := do
  let (rules, _) ← (mkParser (parseFuel s)).parseRules s
  .ok (.stylesheet rules ⟨0, s.cssText.length⟩)

/-- `parse` (parser.ts:38-40): the sole entry point. -/
def parse (cssText : List Char) : Except PErr Node :=
  parseStylesheet (mkTokenizer cssText)

/-! ## State-evolution lemmas

The parser only moves the tokenizer cursor forward, via guarded `advance`
calls; `Steps s s'` captures this (text and token stream are unchanged, the
cursor does not move backwards, and it never moves past the end of the
stream).  These facts drive the fuel-sufficiency induction. -/

/-- Remaining tokens ahead of the cursor. -/
def remTok (s : Tokenizer) : Nat :=
  s.tokens.length - s.cursor

/-- `s'` is reachable from `s` by guarded cursor advances. -/
def Steps (s s' : Tokenizer) : Prop :=
  s'.cssText = s.cssText ∧ s'.tokens = s.tokens ∧ s.cursor ≤ s'.cursor ∧
    (s'.cursor = s.cursor ∨ s'.cursor ≤ s.tokens.length)

theorem Steps.rfl (s : Tokenizer) : Steps s s :=
  ⟨by rfl, by rfl, Nat.le_refl _, Or.inl (by rfl)⟩

theorem Steps.trans {s s' s'' : Tokenizer} (h1 : Steps s s') (h2 : Steps s' s'') :
    Steps s s'' := by
  obtain ⟨c1, t1, l1, d1⟩ := h1
  obtain ⟨c2, t2, l2, d2⟩ := h2
  refine ⟨c2.trans c1, t2.trans t1, l1.trans l2, ?_⟩
  rcases d2 with h | h
  · rw [h]; exact d1
  · right; rw [t1] at h; exact h

theorem currentToken_some_lt {s : Tokenizer} {t : Token}
    (h : s.currentToken = some t) : s.cursor < s.tokens.length :=
  (List.getElem?_eq_some.mp h).1

theorem advance_of_some {s : Tokenizer} {t : Token} (h : s.currentToken = some t) :
    s.advance = (some t, { s with cursor := s.cursor + 1 }) := by
  simp [Tokenizer.advance, h]

theorem steps_advance (s : Tokenizer) : Steps s (s.advance).2 := by
  unfold Tokenizer.advance
  cases h : s.currentToken with
  | none => exact Steps.rfl s
  | some t =>
    exact ⟨by rfl, by rfl, Nat.le_succ _, Or.inr (currentToken_some_lt h)⟩

theorem steps_advance_some {s : Tokenizer} {t : Token} (h : s.currentToken = some t) :
    Steps s (s.advance).2 ∧ (s.advance).2.cursor = s.cursor + 1 := by
  rw [advance_of_some h]
  exact ⟨⟨by rfl, by rfl, Nat.le_succ _, Or.inr (currentToken_some_lt h)⟩, by rfl⟩

theorem steps_skipParens : ∀ (n : Nat) (s : Tokenizer), Steps s (skipParens n s)
  | 0, s => Steps.rfl s
  | n + 1, s => by
    unfold skipParens
    cases h : s.currentToken with
    | none => exact Steps.rfl s
    | some t =>
      by_cases hc : t.is .closeParenthesis
      · simp only [hc, if_true]; exact Steps.rfl s
      · simp only [hc, if_false]
        exact (steps_advance s).trans (steps_skipParens n _)

theorem steps_parseUnknownLoop :
    ∀ (n : Nat) (s : Tokenizer) (e : Option Token), Steps s (parseUnknownLoop n s e).2
  | 0, s, _ => Steps.rfl s
  | n + 1, s, e => by
    unfold parseUnknownLoop
    cases h : s.currentToken with
    | none => exact Steps.rfl s
    | some t =>
      by_cases hb : t.is .boundary
      · simp only [hb, if_true]
        exact (steps_advance s).trans (steps_parseUnknownLoop n _ _)
      · simp only [hb, if_false]; exact Steps.rfl s

theorem steps_atNameRun :
    ∀ (n : Nat) (s : Tokenizer) (e : Option Token), Steps s (atNameRun n s e).2
  | 0, s, _ => Steps.rfl s
  | n + 1, s, e => by
    unfold atNameRun
    cases h : s.currentToken with
    | none => exact Steps.rfl s
    | some t =>
      by_cases hb : t.is .word
      · simp only [hb, if_true]
        exact (steps_advance s).trans (steps_atNameRun n _ _)
      · simp only [hb, if_false]; exact Steps.rfl s

theorem steps_scanDecl :
    ∀ (n : Nat) (s : Tokenizer) (rs re co : Option Token),
      Steps s (scanDecl n s rs re co).state
  | 0, s, _, _, _ => Steps.rfl s
  | n + 1, s, rs, re, co => by
    unfold scanDecl
    cases h : s.currentToken with
    | none => exact Steps.rfl s
    | some t =>
      by_cases hw : t.is .whitespace
      · simp only [hw, if_true]
        exact (steps_advance s).trans (steps_scanDecl n _ _ _ _)
      · by_cases hp : t.is .openParenthesis
        · simp only [hw, hp, if_true, if_false]
          exact (steps_skipParens n s).trans (steps_scanDecl n _ _ _ _)
        · by_cases hb : (t.is .openBrace || t.is .propertyBoundary)
          · simp only [hw, hp, hb, if_true, if_false]; exact Steps.rfl s
          · simp only [hw, hp, hb, if_false]
            cases rs with
            | none => exact (steps_advance s).trans (steps_scanDecl n _ _ _ _)
            | some r => exact (steps_advance s).trans (steps_scanDecl n _ _ _ _)

/-- Once `ruleStart` is recorded, the scan never clears it. -/
theorem scanDecl_ruleStart_mono :
    ∀ (n : Nat) (s : Tokenizer) (rs re co : Option Token),
      rs.isSome → ((scanDecl n s rs re co).ruleStart).isSome
  | 0, _, _, _, _, h => h
  | n + 1, s, rs, re, co, h => by
    unfold scanDecl
    cases hc : s.currentToken with
    | none => exact h
    | some t =>
      by_cases hw : t.is .whitespace
      · simp only [hw, if_true]; exact scanDecl_ruleStart_mono n _ _ _ _ h
      · by_cases hp : t.is .openParenthesis
        · simp only [hw, hp, if_true, if_false]
          exact scanDecl_ruleStart_mono n _ _ _ _ h
        · by_cases hb : (t.is .openBrace || t.is .propertyBoundary)
          · simp only [hw, hp, hb, if_true, if_false]; exact h
          · simp only [hw, hp, hb, if_false]
            cases rs with
            | none => exact absurd h (by simp)
            | some r => exact scanDecl_ruleStart_mono n _ _ _ _ (by simp)
/-- Classification facts about `Token.is`. -/
theorem is_word_type {t : Token} (h : t.is .word = true) : t.type = .word := by
  simpa [Token.is] using h

theorem is_at_type {t : Token} (h : t.is .«at» = true) : t.type = .«at» := by
  simpa [Token.is] using h

theorem remTok_pos {s : Tokenizer} {t : Token} (h : s.currentToken = some t) :
    1 ≤ remTok s := by
  have := currentToken_some_lt h
  unfold remTok; omega

theorem remTok_le_of_steps {s s' : Tokenizer} (h : Steps s s') : remTok s' ≤ remTok s := by
  obtain ⟨_, ht, hle, _⟩ := h
  unfold remTok; rw [ht]; omega

theorem remTok_lt_of_steps {s s' : Tokenizer} (h : Steps s s') (hc : s.cursor < s'.cursor)
    (hlt : s.cursor < s.tokens.length) : remTok s' < remTok s := by
  obtain ⟨_, ht, _, hd⟩ := h
  unfold remTok; rw [ht]
  rcases hd with he | he <;> omega

/-- The scan of `parseDeclarationOrRuleset`, entered at a `word` token,
records it as `ruleStart` in its first iteration. -/
theorem scanDecl_word {s : Tokenizer} {t : Token} (h : s.currentToken = some t)
    (hw : t.type = .word) (n : Nat) :
    scanDecl (n + 1) s none none none =
      scanDecl n ((s.advance).2) (some t) (some t) none := by
  conv_lhs => rw [scanDecl.eq_def]
  simp [h, Token.is, hw]

/-- `parseComment` at a present token consumes exactly that token. -/
theorem parseComment_step {s : Tokenizer} {t : Token} (h : s.currentToken = some t) :
    Steps s (parseComment s).2 ∧ s.cursor < (parseComment s).2.cursor := by
  unfold parseComment
  rw [advance_of_some h]
  exact ⟨⟨rfl, rfl, Nat.le_succ _, Or.inr (currentToken_some_lt h)⟩, Nat.lt_succ_self _⟩

/-- `parseUnknown` at a present token strictly advances the cursor. -/
theorem parseUnknown_step {s : Tokenizer} {t : Token} (h : s.currentToken = some t) :
    Steps s (parseUnknown s).2 ∧ s.cursor < (parseUnknown s).2.cursor := by
  unfold parseUnknown
  rw [advance_of_some h]
  have hadv : Steps s ({ s with cursor := s.cursor + 1 }) :=
    ⟨rfl, rfl, Nat.le_succ _, Or.inr (currentToken_some_lt h)⟩
  have hL := steps_parseUnknownLoop
    (({ s with cursor := s.cursor + 1 } : Tokenizer).tokens.length -
      ({ s with cursor := s.cursor + 1 } : Tokenizer).cursor)
    { s with cursor := s.cursor + 1 } none
  refine ⟨hadv.trans hL, ?_⟩
  exact Nat.lt_of_lt_of_le (Nat.lt_succ_self s.cursor) hL.2.2.1

/-- Valid results of a fuel-indexed parser call: no `outOfFuel`, no
`ruleStart!` null dereference, and the tokenizer steps forward (strictly,
when `strict` is set). -/
def ResSteps {α : Type} (strict : Bool) (s : Tokenizer) :
    Except PErr (α × Tokenizer) → Prop
  | .error e => e ≠ .outOfFuel ∧ e ≠ .ruleStartNull
  | .ok (_, s') => Steps s s' ∧ (strict = true → s.cursor < s'.cursor)

theorem except_bind_ok {α β : Type} (a : α) (f : α → Except PErr β) :
    (Except.ok a >>= f) = f a := rfl

theorem except_bind_err {α β : Type} (e : PErr) (f : α → Except PErr β) :
    ((Except.error e : Except PErr α) >>= f) = .error e := rfl

theorem ResSteps_unstrict {α : Type} {s : Tokenizer} {r : Except PErr (α × Tokenizer)}
    (h : ResSteps true s r) : ResSteps false s r := by
  cases r with
  | error e => exact h
  | ok v => obtain ⟨a, s'⟩ := v; exact ⟨h.1, fun hh => absurd hh (by decide)⟩

theorem ResSteps_of_steps {α : Type} {strict : Bool} {s0 s : Tokenizer} (h : Steps s0 s)
    (hstrict : strict = true → s0.cursor < s.cursor)
    {r : Except PErr (α × Tokenizer)} (hr : ResSteps false s r) :
    ResSteps strict s0 r := by
  cases r with
  | error e => exact hr
  | ok v =>
    obtain ⟨a, s'⟩ := v
    exact ⟨h.trans hr.1, fun hs =>
      Nat.lt_of_lt_of_le (hstrict hs) hr.1.2.2.1⟩

theorem ResSteps_bind {α β : Type} {strict : Bool} {s : Tokenizer}
    {x : Except PErr (α × Tokenizer)} {f : α × Tokenizer → Except PErr (β × Tokenizer)}
    (hx : ResSteps strict s x)
    (hf : ∀ a s1, x = .ok (a, s1) → ResSteps false s1 (f (a, s1))) :
    ResSteps strict s (x >>= f) := by
  cases x with
  | error e => exact hx
  | ok v =>
    obtain ⟨a, s1⟩ := v
    rw [except_bind_ok]
    have hf1 := hf a s1 rfl
    cases hres : f (a, s1) with
    | error e => rw [hres] at hf1; exact hf1
    | ok w =>
      obtain ⟨b, s2⟩ := w
      rw [hres] at hf1
      obtain ⟨hsx, hstx⟩ := hx
      exact ⟨hsx.trans hf1.1, fun hs =>
        Nat.lt_of_lt_of_le (hstx hs) hf1.1.2.2.1⟩

/-- Fuel sufficiency and forward progress for every parser entry point.
With `8 * remTok + c` fuel (constants per entry point), no call runs out of
fuel, no call hits the `ruleStart!` null dereference, and each call with a
present current token consumes at least one token. -/
theorem fuelSound : ∀ n : Nat,
    (∀ s : Tokenizer, 8 * remTok s + 8 ≤ n →
      ResSteps false s ((mkParser n).parseRules s)) ∧
    (∀ (s : Tokenizer) (t : Token), s.currentToken = some t → 8 * remTok s + 7 ≤ n →
      ResSteps true s ((mkParser n).parseRule s)) ∧
    (∀ (s : Tokenizer) (t : Token), s.currentToken = some t → t.type = .word →
      8 * remTok s + 6 ≤ n → ResSteps true s ((mkParser n).parseDeclarationOrRuleset s)) ∧
    (∀ (s : Tokenizer) (t : Token), s.currentToken = some t → t.type = .«at» →
      8 * remTok s + 6 ≤ n → ResSteps true s ((mkParser n).parseAtRule s)) ∧
    (∀ (s : Tokenizer) (acc : AtAcc), 8 * remTok s + 5 ≤ n →
      ResSteps false s ((mkParser n).parseAtRuleLoop s acc)) ∧
    (∀ s : Tokenizer, 8 * remTok s + 4 ≤ n →
      ResSteps true s ((mkParser n).parseRulelist s)) ∧
    (∀ s : Tokenizer, 8 * remTok s + 8 ≤ n →
      ResSteps false s ((mkParser n).parseRulelistLoop s)) := by
  intro n
  induction n using Nat.strong_induction_on with
  | _ n IH =>
    match n with
    | 0 =>
      refine ⟨?_, ?_, ?_, ?_, ?_, ?_, ?_⟩ <;> intros <;> omega
    | k + 1 =>
      have IHk := IH k (Nat.lt_succ_self k)
      refine ⟨?_, ?_, ?_, ?_, ?_, ?_, ?_⟩
      · -- parseRules
        intro s hfuel
        simp only [mkParser]
        cases hc : s.currentToken with
        | none => exact ⟨Steps.rfl s, fun hh => absurd hh (by decide)⟩
        | some t0 =>
          have hP2 := IHk.2.1 s t0 hc (by omega)
          apply ResSteps_bind (ResSteps_unstrict hP2)
          intro r? s1 hEq
          rw [hEq] at hP2
          obtain ⟨hst1, hlt1⟩ := hP2
          have hrem : remTok s1 < remTok s :=
            remTok_lt_of_steps hst1 (hlt1 rfl) (currentToken_some_lt hc)
          apply ResSteps_bind (IHk.1 s1 (by omega))
          intro rest s2 hEq2
          exact ⟨Steps.rfl _, fun hh => absurd hh (by decide)⟩
      · -- parseRule
        intro s t hc hfuel
        simp only [mkParser]
        simp only [hc]
        by_cases hw : t.is .whitespace = true
        · rw [if_pos hw]
          refine ⟨(steps_advance_some hc).1, fun _ => ?_⟩
          rw [(steps_advance_some hc).2]
          omega
        · rw [if_neg hw]
          by_cases hcm : t.is .comment = true
          · rw [if_pos hcm]
            exact ⟨(parseComment_step hc).1, fun _ => (parseComment_step hc).2⟩
          · rw [if_neg hcm]
            by_cases hwd : t.is .word = true
            · rw [if_pos hwd]
              exact IHk.2.2.1 s t hc (is_word_type hwd) (by omega)
            · rw [if_neg hwd]
              by_cases hpb : t.is .propertyBoundary = true
              · rw [if_pos hpb]
                exact ⟨(parseUnknown_step hc).1, fun _ => (parseUnknown_step hc).2⟩
              · rw [if_neg hpb]
                by_cases hat : t.is .«at» = true
                · rw [if_pos hat]
                  exact IHk.2.2.2.1 s t hc (is_at_type hat) (by omega)
                · rw [if_neg hat]
                  exact ⟨(parseUnknown_step hc).1, fun _ => (parseUnknown_step hc).2⟩
      · -- parseDeclarationOrRuleset
        intro s t hc hw hfuel
        simp only [mkParser]
        rw [scanDecl_word hc hw]
        have hadv := steps_advance_some hc
        have hsc := steps_scanDecl (s.tokens.length - s.cursor) ((s.advance).2)
          (some t) (some t) none
        have hsteps : Steps s
            (scanDecl (s.tokens.length - s.cursor) ((s.advance).2)
              (some t) (some t) none).state := hadv.1.trans hsc
        have hlt : s.cursor <
            (scanDecl (s.tokens.length - s.cursor) ((s.advance).2)
              (some t) (some t) none).state.cursor := by
          have h1 := hsc.2.2.1
          rw [hadv.2] at h1
          omega
        have hrem : remTok (scanDecl (s.tokens.length - s.cursor) ((s.advance).2)
            (some t) (some t) none).state < remTok s :=
          remTok_lt_of_steps hsteps hlt (currentToken_some_lt hc)
        have hrs := scanDecl_ruleStart_mono (s.tokens.length - s.cursor) ((s.advance).2)
          (some t) (some t) none (by simp)
        obtain ⟨rs0, hrs0⟩ := Option.isSome_iff_exists.mp hrs
        cases hcur : (scanDecl (s.tokens.length - s.cursor) ((s.advance).2)
            (some t) (some t) none).state.currentToken with
        | none => exact ⟨hsteps, fun _ => hlt⟩
        | some stopTok =>
          dsimp only
          by_cases hpb : stopTok.is .propertyBoundary = true
          · rw [if_pos hpb, hrs0]
            dsimp only
            by_cases hsemi : stopTok.is .semicolon = true
            · rw [if_pos hsemi]
              exact ⟨hsteps.trans (steps_advance _), fun _ =>
                Nat.lt_of_lt_of_le hlt (steps_advance _).2.2.1⟩
            · rw [if_neg hsemi]
              exact ⟨hsteps, fun _ => hlt⟩
          · rw [if_neg hpb]
            by_cases hm : ((scanDecl (s.tokens.length - s.cursor) ((s.advance).2)
                (some t) (some t) none).colon.isSome &&
                ((scanDecl (s.tokens.length - s.cursor) ((s.advance).2)
                  (some t) (some t) none).colon ==
                 (scanDecl (s.tokens.length - s.cursor) ((s.advance).2)
                  (some t) (some t) none).ruleEnd)) = true
            · rw [if_pos hm]
              rw [Bool.and_eq_true] at hm
              obtain ⟨hm1, hm2⟩ := hm
              rw [beq_iff_eq] at hm2
              obtain ⟨c0, hc0⟩ := Option.isSome_iff_exists.mp hm1
              have hre0 : (scanDecl (s.tokens.length - s.cursor) ((s.advance).2)
                  (some t) (some t) none).ruleEnd = some c0 := by rw [← hm2]; exact hc0
              rw [hrs0, hre0]
              apply ResSteps_bind
                (ResSteps_of_steps hsteps (fun _ => hlt)
                  (ResSteps_unstrict (IHk.2.2.2.2.2.1 _ (by omega))))
              intro rl s2 hEq
              dsimp only
              cases hc3 : s2.currentToken with
              | none => exact ⟨by decide, by decide⟩
              | some t2 =>
                dsimp only
                by_cases hsemi : t2.is .semicolon = true
                · rw [if_pos hsemi]
                  exact ⟨steps_advance s2, fun hh => absurd hh (by decide)⟩
                · rw [if_neg hsemi]
                  exact ⟨Steps.rfl _, fun hh => absurd hh (by decide)⟩
            · rw [if_neg hm, hrs0]
              apply ResSteps_bind
                (ResSteps_of_steps hsteps (fun _ => hlt)
                  (ResSteps_unstrict (IHk.2.2.2.2.2.1 _ (by omega))))
              intro rl s2 hEq
              dsimp only
              exact ⟨Steps.rfl _, fun hh => absurd hh (by decide)⟩
      · -- parseAtRule
        intro s t hc hat hfuel
        have hm1 := remTok_pos hc
        simp only [mkParser]
        simp only [hc]
        cases k with
        | zero => omega
        | succ k' =>
          have IHk' := IH k' (by omega)
          simp only [mkParser]
          simp only [hc]
          have h1 : t.is .whitespace = false := by simp [Token.is, hat]
          have h2 : ((⟨none, none, none, none, none⟩ : AtAcc).nameFalsy &&
              t.is .«at») = true := by
            simp [Token.is, hat, AtAcc.nameFalsy]
          rw [if_neg (by rw [h1]; exact Bool.false_ne_true), if_pos h2]
          cases hc2 : ((s.advance).2).currentToken with
          | none =>
            dsimp only
            rw [except_bind_err]
            exact ⟨by decide, by decide⟩
          | some startTok =>
            dsimp only
            have hadv := steps_advance_some hc
            have hrun := steps_atNameRun
              (((s.advance).2).tokens.length - ((s.advance).2).cursor) ((s.advance).2) none
            have hsteps : Steps s (atNameRun
                (((s.advance).2).tokens.length - ((s.advance).2).cursor)
                ((s.advance).2) none).2 := hadv.1.trans hrun
            have hlt : s.cursor < (atNameRun
                (((s.advance).2).tokens.length - ((s.advance).2).cursor)
                ((s.advance).2) none).2.cursor := by
              have h1 := hrun.2.2.1
              have h2 := hadv.2
              omega
            have hrem := remTok_lt_of_steps hsteps hlt (currentToken_some_lt hc)
            apply ResSteps_bind
              (ResSteps_of_steps hsteps (fun _ => hlt)
                (IHk'.2.2.2.2.1 _ _ (by omega)))
            intro acc1 s1 hEq
            dsimp only
            cases hn : acc1.name with
            | none => exact ⟨Steps.rfl _, fun hh => absurd hh (by decide)⟩
            | some nm =>
              cases hnr : acc1.nameRange with
              | none => exact ⟨Steps.rfl _, fun hh => absurd hh (by decide)⟩
              | some nr =>
                dsimp only
                cases hc3 : s1.currentToken with
                | none =>
                  dsimp only
                  rw [except_bind_ok]
                  exact ⟨Steps.rfl _, fun hh => absurd hh (by decide)⟩
                | some t1 =>
                  dsimp only
                  cases hp : s1.prevTok t1 with
                  | none =>
                    dsimp only
                    rw [except_bind_err]
                    exact ⟨by decide, by decide⟩
                  | some pv =>
                    dsimp only
                    rw [except_bind_ok]
                    exact ⟨Steps.rfl _, fun hh => absurd hh (by decide)⟩
      · -- parseAtRuleLoop
        intro s acc hfuel
        simp only [mkParser]
        cases hc : s.currentToken with
        | none => exact ⟨Steps.rfl s, fun hh => absurd hh (by decide)⟩
        | some t =>
          dsimp only
          have hadv := steps_advance_some hc
          have hrem : remTok (s.advance).2 < remTok s := by
            apply remTok_lt_of_steps hadv.1 _ (currentToken_some_lt hc)
            rw [hadv.2]; omega
          by_cases hw : t.is .whitespace = true
          · rw [if_pos hw]
            exact ResSteps_of_steps hadv.1 (fun hh => absurd hh (by decide))
              (IHk.2.2.2.2.1 _ acc (by omega))
          · rw [if_neg hw]
            by_cases hfa : (acc.nameFalsy && t.is .«at») = true
            · rw [if_pos hfa]
              cases hc2 : ((s.advance).2).currentToken with
              | none => exact ⟨by decide, by decide⟩
              | some startTok =>
                dsimp only
                have hrun := steps_atNameRun
                  (((s.advance).2).tokens.length - ((s.advance).2).cursor)
                  ((s.advance).2) none
                have hsteps := hadv.1.trans hrun
                have hrem2 : remTok (atNameRun
                    (((s.advance).2).tokens.length - ((s.advance).2).cursor)
                    ((s.advance).2) none).2 ≤ remTok (s.advance).2 :=
                  remTok_le_of_steps hrun
                exact ResSteps_of_steps hsteps (fun hh => absurd hh (by decide))
                  (IHk.2.2.2.2.1 _ _ (by omega))
            · rw [if_neg hfa]
              by_cases hob : t.is .openBrace = true
              · rw [if_pos hob]
                apply ResSteps_bind
                  (ResSteps_unstrict (IHk.2.2.2.2.2.1 s (by omega)))
                intro rl s2 hEq
                dsimp only
                exact ⟨Steps.rfl _, fun hh => absurd hh (by decide)⟩
              · rw [if_neg hob]
                by_cases hpb : t.is .propertyBoundary = true
                · rw [if_pos hpb]
                  exact ⟨hadv.1, fun hh => absurd hh (by decide)⟩
                · rw [if_neg hpb]
                  cases hps : acc.parametersStart with
                  | none =>
                    dsimp only
                    exact ResSteps_of_steps hadv.1 (fun hh => absurd hh (by decide))
                      (IHk.2.2.2.2.1 _ _ (by omega))
                  | some ps =>
                    dsimp only
                    exact ResSteps_of_steps hadv.1 (fun hh => absurd hh (by decide))
                      (IHk.2.2.2.2.1 _ _ (by omega))
      · -- parseRulelist
        intro s hfuel
        simp only [mkParser]
        cases hc : s.currentToken with
        | none => exact ⟨by decide, by decide⟩
        | some t0 =>
          dsimp only
          have hadv := steps_advance_some hc
          have hrem : remTok (s.advance).2 < remTok s := by
            apply remTok_lt_of_steps hadv.1 _ (currentToken_some_lt hc)
            rw [hadv.2]; omega
          apply ResSteps_bind
            (ResSteps_of_steps hadv.1 (fun _ => by rw [hadv.2]; omega)
              (IHk.2.2.2.2.2.2 _ (by omega)))
          intro re s2 hEq
          dsimp only
          exact ⟨Steps.rfl _, fun hh => absurd hh (by decide)⟩
      · -- parseRulelistLoop
        intro s hfuel
        simp only [mkParser]
        cases hc : s.currentToken with
        | none => exact ⟨Steps.rfl s, fun hh => absurd hh (by decide)⟩
        | some t =>
          dsimp only
          by_cases hcb : t.is .closeBrace = true
          · rw [if_pos hcb]
            exact ⟨(steps_advance_some hc).1, fun hh => absurd hh (by decide)⟩
          · rw [if_neg hcb]
            have hP2 := IHk.2.1 s t hc (by omega)
            apply ResSteps_bind (ResSteps_unstrict hP2)
            intro r? s1 hEq
            dsimp only
            rw [hEq] at hP2
            obtain ⟨hst1, hlt1⟩ := hP2
            have hrem : remTok s1 < remTok s :=
              remTok_lt_of_steps hst1 (hlt1 rfl) (currentToken_some_lt hc)
            apply ResSteps_bind (IHk.2.2.2.2.2.2 s1 (by omega))
            intro re s2 hEq2
            dsimp only
            exact ⟨Steps.rfl _, fun hh => absurd hh (by decide)⟩

/-! ## Claim theorems -/

/-- C1: on the input `"@"`, `parse` does not return a `Stylesheet`: after
discarding the `@` at end of input, `parseAtRule` reads
`tokenizer.currentToken` (now `null`) and passes it to `getRange`
(parser.ts:163,170), a null dereference (`TypeError` at runtime).  This
contradicts the claimed totality of `parse`. -/
theorem C1_parse_throws_on_lone_at : parse "@".toList = .error .typeError := rfl

/-- C2 (amended): on `"\x7d weird ; .a\x7b\x7d"` the top-level rules are a
`Discarded` node spanning only the stray `}` (the token after it is
whitespace, which is not in the `boundary` category, so the boundary run is
empty), then a `Declaration` named `weird` with no value, then the
`Ruleset` for `.a{}`. -/
theorem C2_amended_recovery :
    parse "\x7d weird ; .a\x7b\x7d".toList = .ok (.stylesheet
      [.discarded ['}'] ⟨0, 1⟩,
       .declaration ['w', 'e', 'i', 'r', 'd'] none ⟨2, 7⟩ ⟨2, 9⟩,
       .ruleset ['.', 'a'] (.rulelist [] ⟨12, 14⟩) ⟨10, 12⟩ ⟨10, 14⟩]
      ⟨0, 14⟩) := rfl

/-- C2 (counterexample): the claim that the rules consist of exactly a
leading `Discarded` followed by a `Ruleset` is false — a `Declaration`
node for `weird ;` sits between them. -/
theorem C2_counterexample :
    ¬ ∃ (dtext : List Char) (dr : Range) (sel : List Char) (rl : Node)
        (sr rr ssr : Range),
      parse "\x7d weird ; .a\x7b\x7d".toList =
        .ok (.stylesheet [.discarded dtext dr, .ruleset sel rl sr rr] ssr) := by
  rintro ⟨dtext, dr, sel, rl, sr, rr, ssr, h⟩
  rw [show parse "\x7d weird ; .a\x7b\x7d".toList = .ok (.stylesheet
      [.discarded ['}'] ⟨0, 1⟩,
       .declaration ['w', 'e', 'i', 'r', 'd'] none ⟨2, 7⟩ ⟨2, 9⟩,
       .ruleset ['.', 'a'] (.rulelist [] ⟨12, 14⟩) ⟨10, 12⟩ ⟨10, 14⟩]
      ⟨0, 14⟩) from rfl] at h
  simp at h

/-- C5: the mixin example works (`--foo: { color: red; };` yields one
`Declaration` named `--foo` whose value is a `Rulelist` holding the one
`color: red` declaration), but the general mixin branch is broken: when
the rulelist ends the input (`"--foo: \x7b\x7d"`), line 314 of parser.ts calls
`.is` on the now-`null` `currentToken` and throws. -/
theorem C5_mixin_example_and_crash :
    parse "--foo: \x7b color: red; \x7d;".toList = .ok (.stylesheet
      [.declaration ['-', '-', 'f', 'o', 'o']
        (some (.rulelist
          [.declaration ['c', 'o', 'l', 'o', 'r']
            (some (.expression ['r', 'e', 'd'] ⟨16, 19⟩)) ⟨9, 14⟩ ⟨9, 20⟩]
          ⟨7, 22⟩))
        ⟨0, 5⟩ ⟨0, 6⟩]
      ⟨0, 23⟩)
    ∧ parse "--foo: \x7b\x7d".toList = .error .typeError :=
  ⟨rfl, rfl⟩

/-- C9: `parse` terminates on every input.  The fuel `parse` supplies
(`8 * tokenCount + 9`) is always sufficient — the fuel-indexed run never
reaches the `outOfFuel` case, because every `parseRules` iteration either
consumes a token or returns (theorem `fuelSound`) — and recovery
(`parseUnknown`) always consumes at least one token. -/
theorem C9_parse_terminates :
    (∀ cssText : List Char, parse cssText ≠ .error .outOfFuel) ∧
    (∀ (s : Tokenizer) (t : Token), s.currentToken = some t →
      s.cursor < (parseUnknown s).2.cursor) := by
  constructor
  · intro cs
    unfold parse parseStylesheet
    have h := (fuelSound (parseFuel (mkTokenizer cs))).1 (mkTokenizer cs)
      (by simp [remTok, parseFuel, mkTokenizer])
    cases hr : (mkParser (parseFuel (mkTokenizer cs))).parseRules (mkTokenizer cs) with
    | error e =>
      rw [hr] at h
      rw [except_bind_err]
      intro habs
      injection habs with h2
      exact h.1 h2
    | ok v =>
      obtain ⟨rules, sf⟩ := v
      rw [except_bind_ok]
      intro habs
      exact Except.noConfusion habs
  · exact fun s t h => (parseUnknown_step h).2

/-- C9 witness. -/
theorem C9_witness :
    parse "x".toList ≠ .error .outOfFuel ∧
    (mkTokenizer ";".toList).cursor < (parseUnknown (mkTokenizer ";".toList)).2.cursor :=
  ⟨C9_parse_terminates.1 _,
   C9_parse_terminates.2 (mkTokenizer ";".toList) ⟨.semicolon, 0, 1, 0⟩ rfl⟩

/-- C10: when `parseDeclarationOrRuleset` is entered at a `word` token (the
only way `parseRule` invokes it), the scan records a non-null `ruleStart`
in its first iteration, and consequently no run of `parse` ever reaches the
`ruleStart!` null dereferences flagged by the comment at parser.ts:246-248. -/
theorem C10_ruleStart_never_null :
    (∀ (fuel : Nat) (s : Tokenizer) (t : Token), s.currentToken = some t →
      t.type = .word →
      ((scanDecl (fuel + 1) s none none none).ruleStart).isSome = true) ∧
    (∀ cssText : List Char, parse cssText ≠ .error .ruleStartNull) := by
  constructor
  · intro fuel s t hc hw
    rw [scanDecl_word hc hw]
    exact scanDecl_ruleStart_mono _ _ _ _ _ (by simp)
  · intro cs
    unfold parse parseStylesheet
    have h := (fuelSound (parseFuel (mkTokenizer cs))).1 (mkTokenizer cs)
      (by simp [remTok, parseFuel, mkTokenizer])
    cases hr : (mkParser (parseFuel (mkTokenizer cs))).parseRules (mkTokenizer cs) with
    | error e =>
      rw [hr] at h
      rw [except_bind_err]
      intro habs
      injection habs with h2
      exact h.2 h2
    | ok v =>
      obtain ⟨rules, sf⟩ := v
      rw [except_bind_ok]
      intro habs
      exact Except.noConfusion habs

/-- C10 witness. -/
theorem C10_witness :
    ((scanDecl 6 (mkTokenizer "a\x7b".toList) none none none).ruleStart).isSome = true ∧
    parse "a\x7b".toList ≠ .error .ruleStartNull :=
  ⟨C10_ruleStart_never_null.1 5 (mkTokenizer "a\x7b".toList) ⟨.word, 0, 1, 0⟩ rfl rfl,
   C10_ruleStart_never_null.2 _⟩

/-- Spec-side companion of the disambiguation scan, for claim C3: the list
of all top-level colon tokens in the scanned span, in scan order (same
traversal as the scan loop of `parseDeclarationOrRuleset`: skip whitespace,
skip `( ... )` interiors, stop at `openBrace`/`propertyBoundary` or end of
input; every other consumed token that is a colon is collected). -/
def scanTopLevelColons : Nat → Tokenizer → List Token
  | 0, _ => []
  | n + 1, s =>
    match s.currentToken with
    | none => []
    | some t =>
      if t.is .whitespace then scanTopLevelColons n ((s.advance).2)
      else if t.is .openParenthesis then scanTopLevelColons n (skipParens n s)
      else if t.is .openBrace || t.is .propertyBoundary then []
      else (if t.is .colon then [t] else []) ++ scanTopLevelColons n ((s.advance).2)

/-- The colon accumulator of the scan holds the last top-level colon of
accumulator-so-far and scanned span. -/
theorem scanDecl_colon_acc :
    ∀ (n : Nat) (s : Tokenizer) (rs re co : Option Token),
      (scanDecl n s rs re co).colon = (co.toList ++ scanTopLevelColons n s).getLast?
  | 0, s, rs, re, co => by cases co <;> simp [scanDecl, scanTopLevelColons]
  | n + 1, s, rs, re, co => by
    rw [scanDecl.eq_def, scanTopLevelColons.eq_def]
    dsimp only
    cases hc : s.currentToken with
    | none => cases co <;> simp
    | some t =>
      dsimp only
      by_cases hw : t.is .whitespace = true
      · rw [if_pos hw, if_pos hw]
        exact scanDecl_colon_acc n _ rs re co
      · rw [if_neg hw, if_neg hw]
        by_cases hp : t.is .openParenthesis = true
        · rw [if_pos hp, if_pos hp]
          exact scanDecl_colon_acc n _ rs re co
        · rw [if_neg hp, if_neg hp]
          by_cases hb : (t.is .openBrace || t.is .propertyBoundary) = true
          · rw [if_pos hb, if_pos hb]
            cases co <;> simp
          · rw [if_neg hb, if_neg hb]
            cases rs with
            | none =>
              dsimp only
              by_cases hco : t.is .colon = true
              · rw [if_pos hco, if_pos hco,
                  scanDecl_colon_acc n ((s.advance).2) (some t) (some t) (some t)]
                simp only [Option.toList_some, List.singleton_append, List.cons_append,
                  List.getLast?_append_cons]
              · rw [if_neg hco, if_neg hco,
                  scanDecl_colon_acc n ((s.advance).2) (some t) (some t) co]
                simp
            | some r =>
              dsimp only
              by_cases hco : t.is .colon = true
              · rw [if_pos hco, if_pos hco,
                  scanDecl_colon_acc n ((s.advance).2) (some r) (some t) (some t)]
                simp only [Option.toList_some, List.singleton_append, List.cons_append,
                  List.getLast?_append_cons]
              · rw [if_neg hco, if_neg hco,
                  scanDecl_colon_acc n ((s.advance).2) (some r) (some t) co]
                simp

/-- C3 (amended): the colon the scan records — and which the declaration
branch uses to split name from value — is the LAST top-level colon of the
scanned span, not the first. -/
theorem C3_amended_scan_records_last_colon :
    ∀ (n : Nat) (s : Tokenizer),
      (scanDecl n s none none none).colon = (scanTopLevelColons n s).getLast? := by
  intro n s
  simpa using scanDecl_colon_acc n s none none none

/-- C3 (counterexample): on `"a:b:c;"` (scan fuel `7`, exactly what
`parseDeclarationOrRuleset` supplies at the entry state) the scan records
the colon at offset 3, whereas the first top-level colon sits at offset 1;
`parse` then splits the declaration as name `a:b` / value `c`, not at the
first colon. -/
theorem C3_counterexample :
    (scanDecl 7 (mkTokenizer "a:b:c;".toList) none none none).colon =
        some ⟨.colon, 3, 4, 3⟩ ∧
    (scanTopLevelColons 7 (mkTokenizer "a:b:c;".toList)).head? =
        some ⟨.colon, 1, 2, 1⟩ ∧
    (scanDecl 7 (mkTokenizer "a:b:c;".toList) none none none).colon ≠
      (scanTopLevelColons 7 (mkTokenizer "a:b:c;".toList)).head? ∧
    parse "a:b:c;".toList = .ok (.stylesheet
      [.declaration ['a', ':', 'b'] (some (.expression ['c'] ⟨4, 5⟩)) ⟨0, 3⟩ ⟨0, 5⟩]
      ⟨0, 6⟩) := by
  refine ⟨rfl, rfl, ?_, rfl⟩
  intro h
  rw [show (scanDecl 7 (mkTokenizer "a:b:c;".toList) none none none).colon =
        some ⟨.colon, 3, 4, 3⟩ from rfl,
      show (scanTopLevelColons 7 (mkTokenizer "a:b:c;".toList)).head? =
        some ⟨.colon, 1, 2, 1⟩ from rfl] at h
  simp at h

/-- C6: whenever the disambiguation scan runs off the end of the input
(the state after the scan has no current token), `parseDeclarationOrRuleset`
returns `null` and produces no node for the scanned span
(parser.ts:277-280). -/
theorem C6_scan_exhausted_returns_null (n : Nat) (s : Tokenizer) (sc : ScanResult)
    (hscan : scanDecl (s.tokens.length - s.cursor + 1) s none none none = sc)
    (hnone : sc.state.currentToken = none) :
    parseDeclarationOrRuleset (n + 1) s = .ok (none, sc.state) := by
  unfold parseDeclarationOrRuleset
  simp only [mkParser]
  rw [hscan, hnone]

/-- C6 witness: input `"abc"` — a lone word token, the scan hits end of
input, no node is produced. -/
theorem C6_witness :
    parseDeclarationOrRuleset 6 (mkTokenizer "abc".toList) =
      .ok (none, (scanDecl 2 (mkTokenizer "abc".toList) none none none).state) :=
  C6_scan_exhausted_returns_null 5 (mkTokenizer "abc".toList)
    (scanDecl 2 (mkTokenizer "abc".toList) none none none) rfl rfl

/-- C4: whenever the scan stops at a `propertyBoundary`-category token, the
result is a `Declaration`: the name range runs from `ruleStart` to the
token before the colon when one was recorded (colon excluded; the range end
defaults to `ruleStart` itself if the colon has no predecessor) and to
`ruleEnd` otherwise; when a colon was recorded and has a following token,
the value is an `Expression` holding the text from `colon.next` to
`ruleEnd`, whitespace-trimmed; otherwise there is no value; and a trailing
semicolon is consumed exactly when the stopping token is a semicolon
(parser.ts:283-309). -/
theorem C4_declaration_branch (n : Nat) (s : Tokenizer) (sc : ScanResult)
    (rs stopTok : Token)
    (hscan : scanDecl (s.tokens.length - s.cursor + 1) s none none none = sc)
    (hrs : sc.ruleStart = some rs)
    (hstop : sc.state.currentToken = some stopTok)
    (hpb : stopTok.is .propertyBoundary = true) :
    ∃ rng : Range,
      parseDeclarationOrRuleset (n + 1) s =
        .ok (some (.declaration
          (sliceText sc.state.cssText
            rs.start
            ((match sc.colon with
              | some c => sc.state.prevTok c
              | none => sc.ruleEnd).getD rs).stop)
          (match sc.colon with
           | some c =>
             match sc.state.nextTok c with
             | some cn =>
               some (.expression
                 (sliceText sc.state.cssText
                   (trimRange sc.state.cssText (sc.state.getRange cn sc.ruleEnd)).start
                   (trimRange sc.state.cssText (sc.state.getRange cn sc.ruleEnd)).stop)
                 (trimRange sc.state.cssText (sc.state.getRange cn sc.ruleEnd)))
             | none => none
           | none => none)
          ⟨rs.start,
           ((match sc.colon with
             | some c => sc.state.prevTok c
             | none => sc.ruleEnd).getD rs).stop⟩
          rng),
          if stopTok.is .semicolon = true then ((sc.state).advance).2 else sc.state) := by
  unfold parseDeclarationOrRuleset
  simp only [mkParser]
  rw [hscan, hstop]
  dsimp only
  rw [if_pos hpb, hrs]
  dsimp only
  cases hcol : sc.colon with
  | none => exact ⟨_, rfl⟩
  | some c => exact ⟨_, rfl⟩

/-- C4 witness: `"a: b;"` yields one `Declaration` named `a` with
expression value `b`, its trailing semicolon consumed. -/
theorem C4_witness :
    ∃ (rng : Range) (s' : Tokenizer),
      parseDeclarationOrRuleset 6 (mkTokenizer "a: b;".toList) =
        .ok (some (.declaration ['a'] (some (.expression ['b'] ⟨3, 4⟩)) ⟨0, 1⟩ rng), s') := by
  obtain ⟨rng, h⟩ := C4_declaration_branch 5 (mkTokenizer "a: b;".toList)
    (scanDecl 6 (mkTokenizer "a: b;".toList) none none none)
    ⟨.word, 0, 1, 0⟩ ⟨.semicolon, 4, 5, 4⟩ rfl rfl rfl rfl
  exact ⟨rng, _, by rw [h]; rfl⟩

/-- The rulelist loop only ever reports a `closeBrace` as its end token,
and reports no end token only when the input is exhausted. -/
theorem parseRulelistLoop_end :
    ∀ (k : Nat) (s : Tokenizer) (rules : List Node) (endTok : Option Token) (s2 : Tokenizer),
      (mkParser k).parseRulelistLoop s = .ok ((rules, endTok), s2) →
      (∀ e, endTok = some e → e.is .closeBrace = true) ∧
      (endTok = none → s2.currentToken = none)
  | 0, s, rules, endTok, s2 => by
    intro h
    simp [mkParser] at h
  | k + 1, s, rules, endTok, s2 => by
    intro h
    simp only [mkParser] at h
    cases hc : s.currentToken with
    | none =>
      simp only [hc, Except.ok.injEq, Prod.mk.injEq] at h
      obtain ⟨⟨h1, h2⟩, h3⟩ := h
      subst h2; subst h3
      exact ⟨fun e he => Option.noConfusion he, fun _ => hc⟩
    | some t =>
      simp only [hc] at h
      by_cases hcb : t.is .closeBrace = true
      · rw [if_pos hcb] at h
        simp only [Except.ok.injEq, Prod.mk.injEq] at h
        obtain ⟨⟨h1, h2⟩, h3⟩ := h
        subst h2
        refine ⟨fun e he => ?_, fun hno => Option.noConfusion hno⟩
        injection he with he'
        subst he'
        exact hcb
      · rw [if_neg hcb] at h
        cases hr : (mkParser k).parseRule s with
        | error e =>
          rw [hr, except_bind_err] at h
          exact absurd h (by simp)
        | ok v =>
          obtain ⟨r?, s1⟩ := v
          rw [hr, except_bind_ok] at h
          dsimp only at h
          cases hrl : (mkParser k).parseRulelistLoop s1 with
          | error e =>
            rw [hrl, except_bind_err] at h
            exact absurd h (by simp)
          | ok w =>
            obtain ⟨⟨rest, endTok'⟩, s2'⟩ := w
            rw [hrl, except_bind_ok] at h
            dsimp only at h
            simp only [Except.ok.injEq, Prod.mk.injEq] at h
            obtain ⟨⟨h1, h2⟩, h3⟩ := h
            subst h2; subst h3
            exact parseRulelistLoop_end k s1 rest endTok' s2' hrl

/-- C7: `parseRulelist`, entered at an `openBrace`, consumes it and parses
rules until a `closeBrace` (consumed) or end of input; the resulting
`Rulelist`'s range starts at the `{` and ends at a `closeBrace`'s end when
one was found, else at end-of-text — and the unterminated input
`".a \x7b color: red;"` yields a `Ruleset` whose `Rulelist` extends to
end-of-input and contains the one declaration, with no error. -/
theorem C7_rulelist_ranges :
    (∀ (n : Nat) (s : Tokenizer) (t : Token) (nd : Node) (s' : Tokenizer),
      s.currentToken = some t → parseRulelist n s = .ok (nd, s') →
      ∃ (rules : List Node) (stopN : Nat),
        nd = .rulelist rules ⟨t.start, stopN⟩ ∧
        ((∃ e : Token, e.is .closeBrace = true ∧ stopN = e.stop) ∨
         (stopN = s'.cssText.length ∧ s'.currentToken = none))) ∧
    parse ".a \x7b color: red;".toList = .ok (.stylesheet
      [.ruleset ['.', 'a']
        (.rulelist
          [.declaration ['c', 'o', 'l', 'o', 'r']
            (some (.expression ['r', 'e', 'd'] ⟨12, 15⟩)) ⟨5, 10⟩ ⟨5, 15⟩]
          ⟨3, 16⟩)
        ⟨0, 2⟩ ⟨0, 16⟩]
      ⟨0, 16⟩) := by
  constructor
  · intro n s t nd s' hc hpr
    cases n with
    | zero =>
      unfold parseRulelist at hpr
      simp [mkParser] at hpr
    | succ k =>
      unfold parseRulelist at hpr
      simp only [mkParser] at hpr
      rw [hc] at hpr
      dsimp only at hpr
      cases hrl : (mkParser k).parseRulelistLoop (s.advance).2 with
      | error e =>
        rw [hrl, except_bind_err] at hpr
        exact absurd hpr (by simp)
      | ok w =>
        obtain ⟨⟨rules, endTok⟩, s2⟩ := w
        rw [hrl, except_bind_ok] at hpr
        dsimp only at hpr
        have hend := parseRulelistLoop_end k ((s.advance).2) rules endTok s2 hrl
        simp only [Except.ok.injEq, Prod.mk.injEq] at hpr
        obtain ⟨h1, h2⟩ := hpr
        subst h2
        cases endTok with
        | some e =>
          refine ⟨rules, e.stop, ?_, Or.inl ⟨e, hend.1 e rfl, rfl⟩⟩
          rw [← h1]
        | none =>
          refine ⟨rules, s2.cssText.length, ?_, Or.inr ⟨rfl, hend.2 rfl⟩⟩
          rw [← h1]
  · rfl

/-- C7 witness: `parseRulelist` on `"\x7b\x7d"` — the general shape theorem
instantiated at a concrete call. -/
theorem C7_witness :
    ∃ (rules : List Node) (stopN : Nat),
      (Node.rulelist [] ⟨0, 2⟩) = .rulelist rules ⟨(0 : Nat), stopN⟩ ∧
      ((∃ e : Token, e.is .closeBrace = true ∧ stopN = e.stop) ∨
       (stopN = ({ mkTokenizer "\x7b\x7d".toList with cursor := 2 } : Tokenizer).cssText.length ∧
        ({ mkTokenizer "\x7b\x7d".toList with cursor := 2 } : Tokenizer).currentToken = none)) :=
  C7_rulelist_ranges.1 20 (mkTokenizer "\x7b\x7d".toList) ⟨.openBrace, 0, 1, 0⟩
    (.rulelist [] ⟨0, 2⟩) { mkTokenizer "\x7b\x7d".toList with cursor := 2 } rfl rfl

/-- C8: at-rule parsing.  `"@import \"x.css\";"` yields one `AtRule` named
`import` with trimmed parameters `"x.css"` and no rulelist (the
`propertyBoundary` stop consumes the semicolon); and whenever the at-rule
loop completes with the `name` never captured, `parseAtRule` returns `null`
(parser.ts:187-189). -/
theorem C8_atRule :
    parse "@import \"x.css\";".toList = .ok (.stylesheet
      [.atRule ['i', 'm', 'p', 'o', 'r', 't']
        ['\"', 'x', '.', 'c', 's', 's', '\"'] none ⟨1, 7⟩ (some ⟨8, 15⟩) ⟨0, 16⟩]
      ⟨0, 16⟩) ∧
    (∀ (n : Nat) (s : Tokenizer) (t : Token) (acc1 : AtAcc) (s1 : Tokenizer),
      s.currentToken = some t →
      (mkParser n).parseAtRuleLoop s ⟨none, none, none, none, none⟩ = .ok (acc1, s1) →
      acc1.name = none →
      parseAtRule (n + 1) s = .ok (none, s1)) := by
  constructor
  · rfl
  · intro n s t acc1 s1 hc hloop hname
    unfold parseAtRule
    simp only [mkParser]
    rw [hc]
    dsimp only
    rw [hloop, except_bind_ok]
    dsimp only
    rw [hname]

/-- C8 witness: `parseAtRule` on the lone word `"x"` — the loop runs to end
of input without ever seeing an `@`, so no name is captured and `null` is
returned. -/
theorem C8_witness :
    parseAtRule 6 (mkTokenizer "x".toList) =
      .ok (none, { mkTokenizer "x".toList with cursor := 1 }) :=
  C8_atRule.2 5 (mkTokenizer "x".toList) ⟨.word, 0, 1, 0⟩
    ⟨none, none, none, some ⟨.word, 0, 1, 0⟩, none⟩
    { mkTokenizer "x".toList with cursor := 1 } rfl rfl rfl
